import Mathlib

/-!
# Forest-fire cellular automaton: verification of the simulation core

Shallow embedding of `src/main.py` (classes `TileState`, `Forest`, `Simulation`).

Modelling conventions:
* The numpy 2-D array `self.grid` is embedded as a total function
  `Nat → Nat → TileState`; all reads and writes performed by the program stay
  inside `[0, size) × [0, size)`, so values outside that square are irrelevant
  (and are shown to be preserved by every operation).
* Python's `%` on `int` agrees with Lean's `Int.emod` whenever the modulus is
  positive (both return the unique representative in `[0, size)`), which is the
  only situation where the program evaluates `row % self.size`.
* Randomness is made explicit: `np.random.shuffle(available_positions)` becomes
  an arbitrary permutation `order` of `available_positions`, and
  `np.random.choice(len(tree_positions))` becomes an arbitrary index `choice`
  (reduced modulo the number of candidates, exactly the range `np.random.choice`
  draws from).
* `np.full((size, size), EMPTY)` raises a `ValueError` when `size` is negative
  and otherwise succeeds (a `0 × 0` array for `size = 0`), embedded with
  `Except`.
-/

/-- `class TileState(Enum)` of `main.py`. -/
inductive TileState where
  | EMPTY
  | TREE
  | FIRE
  | ASHES
deriving DecidableEq, Repr

/-- `class Forest` of `main.py`: a side length and the cell matrix. -/
structure Forest where
  size : Nat
  grid : Nat → Nat → TileState

/-- Row-major enumeration of all cell positions of an `n × n` grid: the list
`available_positions = [(i, j) for i in range(size) for j in range(size)]`
built by `Forest.plant_trees`, and also the iteration order of the nested
`for row in range(size): for col in range(size):` loops. -/
def available_positions (n : Nat) : List (Nat × Nat) :=
  (List.range n).flatMap fun i => (List.range n).map fun j => (i, j)

/-- Functional update of one cell of the matrix: `grid[row][col] = state`. -/
def setG (g : Nat → Nat → TileState) (r c : Nat) (s : TileState) :
    Nat → Nat → TileState :=
  fun i j => if i = r ∧ j = c then s else g i j

/-- `Forest.__init__`: `np.full((size, size), TileState.EMPTY)`.  NumPy raises
`ValueError: negative dimensions are not allowed` for a negative size and
otherwise builds the all-`EMPTY` matrix (empty when `size = 0`); there is no
other validation in the constructor. -/
def Forest.init (size : Int) : Except String Forest :=
  if size < 0 then .error "negative dimensions are not allowed"
  else .ok { size := size.toNat, grid := fun _ _ => TileState.EMPTY }

/-- `Forest.get_state(row, col)`: `self.grid[row % self.size][col % self.size]`.
Python `%` with a positive modulus is `Int.emod`. -/
def Forest.get_state (f : Forest) (row col : Int) : TileState :=
  f.grid (row % (f.size : Int)).toNat (col % (f.size : Int)).toNat

/-- `Forest.set_state(row, col, state)`:
`self.grid[row % self.size][col % self.size] = state`. -/
def Forest.set_state (f : Forest) (row col : Int) (state : TileState) : Forest :=
  { f with
    grid := setG f.grid (row % (f.size : Int)).toNat (col % (f.size : Int)).toNat
      state }

/-- `Forest.plant_trees(num_trees)`: shuffle `available_positions`, then set the
first `num_trees` of them (all of them if fewer) to `TREE`.  The loop
`for i, (row, col) in enumerate(...): if i >= num_trees: break` writes exactly
the positions of index `< num_trees`, i.e. the prefix `order.take num_trees`
(empty when `num_trees ≤ 0`).  `order` stands for the shuffled list. -/
def Forest.plant_trees (f : Forest) (num_trees : Int)
    (order : List (Nat × Nat)) : Forest :=
  { f with
    grid := (order.take num_trees.toNat).foldl
      (fun g p => setG g p.1 p.2 TileState.TREE) f.grid }

/-- `list(zip(*np.where(self.grid == TileState.TREE)))`: the row-major list of
positions currently holding a `TREE`. -/
def Forest.tree_positions (f : Forest) : List (Nat × Nat) :=
  (available_positions f.size).filter fun p =>
    decide (f.grid p.1 p.2 = TileState.TREE)

/-- `Forest.ignite_tree`: if there is at least one `TREE`, pick one of the
`tree_positions` (the random draw `np.random.choice(len(tree_positions))` is
modelled by the arbitrary index `choice` reduced modulo the length) and set it
to `FIRE`; otherwise do nothing. -/
def Forest.ignite_tree (f : Forest) (choice : Nat) : Forest :=
  let tp := f.tree_positions
  if h : tp = [] then f
  else
    let p := tp.get ⟨choice % tp.length, Nat.mod_lt _ (List.length_pos.mpr h)⟩
    { f with grid := setG f.grid p.1 p.2 TileState.FIRE }

/-- `neighbors = [(-1, 0), (1, 0), (0, -1), (0, 1)]` of `Simulation.next_step`. -/
def neighborOffsets : List (Int × Int) := [(-1, 0), (1, 0), (0, -1), (0, 1)]

/-- One iteration of the inner neighbour loop of `Simulation.next_step`, run
for a cell `(row, col)` found on fire and one offset `d`: compute
`nr, nc = row + dr, col + dc`; if the neighbour coordinates are inside the grid
(`0 <= nr < size and 0 <= nc < size` — the code clips at the edges here, it
does not wrap) and the neighbour is a `TREE` in the pre-step grid of `f`,
write `FIRE` into the new grid `g`. -/
def igniteBody (f : Forest) (row col : Nat) (g : Nat → Nat → TileState)
    (d : Int × Int) : Nat → Nat → TileState :=
  let nr : Int := (row : Int) + d.1
  let nc : Int := (col : Int) + d.2
  if 0 ≤ nr ∧ nr < (f.size : Int) ∧ 0 ≤ nc ∧ nc < (f.size : Int) then
    if f.get_state nr nc = TileState.TREE then
      setG g nr.toNat nc.toNat TileState.FIRE
    else g
  else g

/-- The whole inner neighbour loop: `for dr, dc in neighbors: ...`. -/
def igniteFrom (f : Forest) (row col : Nat) (g : Nat → Nat → TileState) :
    Nat → Nat → TileState :=
  neighborOffsets.foldl (igniteBody f row col) g

/-- The body of the nested loops of `Simulation.next_step` for one position:
reads `current_state` from the pre-step forest `f`; a burning cell turns to
`ASHES` in the new grid and ignites its in-bounds `TREE` neighbours; any other
cell leaves the new grid untouched (it keeps the value copied from the old
grid). -/
def stepCell (f : Forest) (g : Nat → Nat → TileState) (p : Nat × Nat) :
    Nat → Nat → TileState :=
  if f.get_state p.1 p.2 = TileState.FIRE then
    igniteFrom f p.1 p.2 (setG g p.1 p.2 TileState.ASHES)
  else g

/-- The grid produced by `Simulation.next_step`: start from
`new_grid = self.forest.grid.copy()` and run the nested loops, then the forest
keeps its size and adopts `new_grid`. -/
def Forest.step (f : Forest) : Forest :=
  { f with grid := (available_positions f.size).foldl (stepCell f) f.grid }

/-- `np.any(self.forest.grid == TileState.FIRE)` over the whole matrix. -/
def Forest.hasFire (f : Forest) : Bool :=
  (available_positions f.size).any fun p =>
    decide (f.grid p.1 p.2 = TileState.FIRE)

/-- `np.count_nonzero(self.forest.grid == s)`: how many cells hold state `s`. -/
def Forest.countState (f : Forest) (s : TileState) : Nat :=
  ((available_positions f.size).filter fun p =>
    decide (f.grid p.1 p.2 = s)).length

/-- `class Simulation` of `main.py`: the bound forest and the clock. -/
structure Simulation where
  forest : Forest
  time_step : Nat

/-- `Simulation.next_step`: replace the grid by the freshly computed one and
increment the clock.  (The statistics it also computes are
`forest.countState TREE` and `forest.countState ASHES` of the new state; the
chart update is UI glue outside the core.) -/
def Simulation.next_step (s : Simulation) : Simulation :=
  { forest := s.forest.step, time_step := s.time_step + 1 }

/-- `Simulation.has_fire`. -/
def Simulation.has_fire (s : Simulation) : Bool :=
  s.forest.hasFire

/-! ## Basic facts about positions and cell access -/

theorem available_positions_eq_product (n : Nat) :
    available_positions n = (List.range n).product (List.range n) := rfl

theorem mem_available_positions {n : Nat} {p : Nat × Nat} :
    p ∈ available_positions n ↔ p.1 < n ∧ p.2 < n := by
  cases p with
  | mk a b =>
    rw [available_positions_eq_product]
    simp [List.mem_product]

theorem available_positions_nodup (n : Nat) : (available_positions n).Nodup := by
  rw [available_positions_eq_product]
  exact List.Nodup.product (List.nodup_range n) (List.nodup_range n)

theorem available_positions_length (n : Nat) :
    (available_positions n).length = n * n := by
  show ((List.range n) ×ˢ (List.range n)).length = n * n
  rw [List.length_product, List.length_range]

theorem setG_same (g : Nat → Nat → TileState) (r c : Nat) (s : TileState) :
    setG g r c s r c = s := by
  simp [setG]

theorem setG_other (g : Nat → Nat → TileState) (r c : Nat) (s : TileState)
    {i j : Nat} (h : (i, j) ≠ (r, c)) : setG g r c s i j = g i j := by
  have h' : ¬(i = r ∧ j = c) := by
    intro hc
    exact h (by cases hc with | intro h1 h2 => cases h1; cases h2; rfl)
  simp [setG, h']

theorem int_coe_emod_toNat {n : Nat} (r : Nat) (h : r < n) :
    (((r : Int) % (n : Int)).toNat) = r := by
  rw [Int.emod_eq_of_lt (by positivity) (by exact_mod_cast h)]
  exact Int.toNat_natCast r

/-- Reading an in-range cell through `get_state` is reading the matrix. -/
theorem get_state_in_range (f : Forest) {r c : Nat}
    (hr : r < f.size) (hc : c < f.size) :
    f.get_state (r : Int) (c : Int) = f.grid r c := by
  unfold Forest.get_state
  rw [int_coe_emod_toNat r hr, int_coe_emod_toNat c hc]

/-! ## Characterization of the step fold -/

/-- What a run of the inner neighbour loop over any list of offsets does to one
cell of the new grid: it becomes `FIRE` exactly when it is an in-bounds `TREE`
reached by one of the offsets from `(row, col)`; otherwise it keeps its value. -/
theorem foldl_igniteBody_char (f : Forest) (row col : Nat)
    (ds : List (Int × Int)) (g : Nat → Nat → TileState) (r c : Nat) :
    ds.foldl (igniteBody f row col) g r c =
      if r < f.size ∧ c < f.size ∧ f.grid r c = TileState.TREE ∧
          ∃ d ∈ ds, (row : Int) + d.1 = (r : Int) ∧ (col : Int) + d.2 = (c : Int)
      then TileState.FIRE
      else g r c := by
  induction ds generalizing g with
  | nil => simp
  | cons d ds ih =>
    rw [List.foldl_cons, ih]
    by_cases hT : r < f.size ∧ c < f.size ∧ f.grid r c = TileState.TREE ∧
        ∃ e ∈ ds, (row : Int) + e.1 = (r : Int) ∧ (col : Int) + e.2 = (c : Int)
    · rw [if_pos hT, if_pos]
      obtain ⟨h1, h2, h3, e, he, heq⟩ := hT
      exact ⟨h1, h2, h3, e, List.mem_cons_of_mem d he, heq⟩
    · rw [if_neg hT]
      by_cases hd : r < f.size ∧ c < f.size ∧ f.grid r c = TileState.TREE ∧
          (row : Int) + d.1 = (r : Int) ∧ (col : Int) + d.2 = (c : Int)
      · -- the head offset hits (r, c): the body writes FIRE there
        obtain ⟨h1, h2, h3, hd1, hd2⟩ := hd
        rw [if_pos ⟨h1, h2, h3, d, List.mem_cons_self d ds, hd1, hd2⟩]
        have hnr : (row : Int) + d.1 = (r : Int) := hd1
        have hnc : (col : Int) + d.2 = (c : Int) := hd2
        have hinb : 0 ≤ (row : Int) + d.1 ∧ (row : Int) + d.1 < (f.size : Int) ∧
            0 ≤ (col : Int) + d.2 ∧ (col : Int) + d.2 < (f.size : Int) := by
          omega
        have htoNatr : ((row : Int) + d.1).toNat = r := by omega
        have htoNatc : ((col : Int) + d.2).toNat = c := by omega
        have hget : f.get_state ((row : Int) + d.1) ((col : Int) + d.2) =
            TileState.TREE := by
          rw [hnr, hnc, get_state_in_range f h1 h2]; exact h3
        simp only [igniteBody, if_pos hinb, if_pos hget, htoNatr, htoNatc,
          setG_same]
      · -- the head offset does not write at (r, c)
        rw [if_neg]
        · show igniteBody f row col g d r c = g r c
          simp only [igniteBody]
          by_cases hinb : 0 ≤ (row : Int) + d.1 ∧
              (row : Int) + d.1 < (f.size : Int) ∧
              0 ≤ (col : Int) + d.2 ∧ (col : Int) + d.2 < (f.size : Int)
          · rw [if_pos hinb]
            by_cases hget : f.get_state ((row : Int) + d.1) ((col : Int) + d.2) =
                TileState.TREE
            · rw [if_pos hget]
              apply setG_other
              intro hcontra
              have h1 : r = ((row : Int) + d.1).toNat := congrArg Prod.fst hcontra
              have h2 : c = ((col : Int) + d.2).toNat := congrArg Prod.snd hcontra
              have hnr : (row : Int) + d.1 = (r : Int) := by omega
              have hnc : (col : Int) + d.2 = (c : Int) := by omega
              have hrs : r < f.size := by omega
              have hcs : c < f.size := by omega
              have : f.grid r c = TileState.TREE := by
                rw [hnr, hnc, get_state_in_range f hrs hcs] at hget
                exact hget
              exact hd ⟨hrs, hcs, this, hnr, hnc⟩
            · rw [if_neg hget]
          · rw [if_neg hinb]
        · intro hcons
          obtain ⟨h1, h2, h3, e, he, heq⟩ := hcons
          rcases List.mem_cons.mp he with rfl | heds
          · exact hd ⟨h1, h2, h3, heq⟩
          · exact hT ⟨h1, h2, h3, e, heds, heq⟩

/-- `(r, c)` is hit by a burning cell of `L` through the (edge-clipped)
neighbour offsets: the set of cells the iterations of the outer loop over the
positions of `L` write `FIRE` into. -/
def ignitedBy (f : Forest) (L : List (Nat × Nat)) (r c : Nat) : Prop :=
  ∃ q ∈ L, f.grid q.1 q.2 = TileState.FIRE ∧
    ∃ d ∈ neighborOffsets,
      (q.1 : Int) + d.1 = (r : Int) ∧ (q.2 : Int) + d.2 = (c : Int)

theorem ignitedBy_append_singleton (f : Forest) (L : List (Nat × Nat))
    (q : Nat × Nat) (r c : Nat) :
    ignitedBy f (L ++ [q]) r c ↔ ignitedBy f L r c ∨
      (f.grid q.1 q.2 = TileState.FIRE ∧
        ∃ d ∈ neighborOffsets,
          (q.1 : Int) + d.1 = (r : Int) ∧ (q.2 : Int) + d.2 = (c : Int)) := by
  constructor
  · rintro ⟨p, hp, hfire, hd⟩
    rcases List.mem_append.mp hp with hL | hq
    · exact Or.inl ⟨p, hL, hfire, hd⟩
    · rcases List.mem_singleton.mp hq with rfl
      exact Or.inr ⟨hfire, hd⟩
  · rintro (⟨p, hp, hfire, hd⟩ | ⟨hfire, hd⟩)
    · exact ⟨p, List.mem_append_left _ hp, hfire, hd⟩
    · exact ⟨q, List.mem_append_right _ (List.mem_singleton_self q), hfire, hd⟩

/-- What the nested loops of `Simulation.next_step`, run over any list `L` of
in-range positions, do to one cell of the new grid, reading all states from the
pre-step grid of `f`:
* a burning cell of `L` turns to `ASHES`;
* an in-range `TREE` reached from a burning cell of `L` turns to `FIRE`;
* every other cell keeps the value copied from the old grid. -/
theorem foldl_stepCell_char (f : Forest) (L : List (Nat × Nat))
    (hL : ∀ p ∈ L, p.1 < f.size ∧ p.2 < f.size) (r c : Nat) :
    (f.grid r c = TileState.FIRE → (r, c) ∈ L →
        L.foldl (stepCell f) f.grid r c = TileState.ASHES) ∧
    (f.grid r c = TileState.TREE → r < f.size → c < f.size →
      ignitedBy f L r c →
        L.foldl (stepCell f) f.grid r c = TileState.FIRE) ∧
    (¬(f.grid r c = TileState.FIRE ∧ (r, c) ∈ L) →
     ¬(f.grid r c = TileState.TREE ∧ r < f.size ∧ c < f.size ∧
        ignitedBy f L r c) →
        L.foldl (stepCell f) f.grid r c = f.grid r c) := by
  revert hL
  induction L using List.reverseRecOn with
  | nil =>
    intro hL
    refine ⟨?_, ?_, ?_⟩
    · intro _ hmem; exact absurd hmem (List.not_mem_nil _)
    · rintro _ _ _ ⟨q, hq, _⟩; exact absurd hq (List.not_mem_nil _)
    · intro _ _; rfl
  | append_singleton L q ih =>
    intro hL
    have hLq : q.1 < f.size ∧ q.2 < f.size :=
      hL q (List.mem_append_right _ (List.mem_singleton_self q))
    have hL' : ∀ p ∈ L, p.1 < f.size ∧ p.2 < f.size := fun p hp =>
      hL p (List.mem_append_left _ hp)
    obtain ⟨ih1, ih2, ih3⟩ := ih hL'
    have hfold : (L ++ [q]).foldl (stepCell f) f.grid =
        stepCell f (L.foldl (stepCell f) f.grid) q := by
      rw [List.foldl_append, List.foldl_cons, List.foldl_nil]
    set A := L.foldl (stepCell f) f.grid with hA
    have hgetq : f.get_state (q.1 : Int) (q.2 : Int) = f.grid q.1 q.2 :=
      get_state_in_range f hLq.1 hLq.2
    by_cases hqfire : f.grid q.1 q.2 = TileState.FIRE
    · -- the new position is on fire: ASHES at q and FIRE at its tree targets
      have hstep : (L ++ [q]).foldl (stepCell f) f.grid r c =
          if r < f.size ∧ c < f.size ∧ f.grid r c = TileState.TREE ∧
              ∃ d ∈ neighborOffsets,
                (q.1 : Int) + d.1 = (r : Int) ∧ (q.2 : Int) + d.2 = (c : Int)
          then TileState.FIRE
          else setG A q.1 q.2 TileState.ASHES r c := by
        rw [hfold]
        show stepCell f A q r c = _
        rw [stepCell, if_pos (hgetq.trans hqfire)]
        exact foldl_igniteBody_char f q.1 q.2 neighborOffsets _ r c
      by_cases hTgt : r < f.size ∧ c < f.size ∧ f.grid r c = TileState.TREE ∧
          ∃ d ∈ neighborOffsets,
            (q.1 : Int) + d.1 = (r : Int) ∧ (q.2 : Int) + d.2 = (c : Int)
      · rw [hstep, if_pos hTgt]
        refine ⟨?_, ?_, ?_⟩
        · intro hfire _
          rw [hTgt.2.2.1] at hfire; exact absurd hfire (by intro h; cases h)
        · intro _ _ _ _; rfl
        · intro _ hno
          exact absurd ⟨hTgt.2.2.1, hTgt.1, hTgt.2.1,
            q, List.mem_append_right _ (List.mem_singleton_self q),
            hqfire, hTgt.2.2.2⟩ hno
      · rw [hstep, if_neg hTgt]
        by_cases hrcq : (r, c) = (q.1, q.2)
        · have hr : r = q.1 := congrArg Prod.fst hrcq
          have hc : c = q.2 := congrArg Prod.snd hrcq
          have hsame : setG A q.1 q.2 TileState.ASHES r c = TileState.ASHES := by
            rw [hr, hc]; exact setG_same A q.1 q.2 TileState.ASHES
          refine ⟨?_, ?_, ?_⟩
          · intro _ _; exact hsame
          · intro htree _ _ _
            rw [hr, hc] at htree; rw [htree] at hqfire
            exact absurd hqfire (by intro h; cases h)
          · intro hno _
            refine absurd ⟨?_, ?_⟩ hno
            · rw [hr, hc]; exact hqfire
            · rw [hrcq]
              exact List.mem_append_right _ (by
                have : (q.1, q.2) = q := rfl
                rw [this]; exact List.mem_singleton_self q)
        · have hother : setG A q.1 q.2 TileState.ASHES r c = A r c :=
            setG_other A q.1 q.2 TileState.ASHES hrcq
          rw [hother]
          refine ⟨?_, ?_, ?_⟩
          · intro hfire hmem
            apply ih1 hfire
            rcases List.mem_append.mp hmem with h | h
            · exact h
            · exfalso
              rcases List.mem_singleton.mp h with heq
              exact hrcq (by rw [heq])
          · intro htree hr hc hign
            apply ih2 htree hr hc
            rcases (ignitedBy_append_singleton f L q r c).mp hign with h | h
            · exact h
            · exact absurd ⟨hr, hc, htree, h.2⟩ hTgt
          · intro hno1 hno2
            apply ih3
            · intro ⟨hfire, hmem⟩
              exact hno1 ⟨hfire, List.mem_append_left _ hmem⟩
            · intro ⟨htree, hr, hc, hign⟩
              exact hno2 ⟨htree, hr, hc,
                (ignitedBy_append_singleton f L q r c).mpr (Or.inl hign)⟩
    · -- the new position is not on fire: this iteration is a no-op
      have hstep : (L ++ [q]).foldl (stepCell f) f.grid r c = A r c := by
        rw [hfold]
        show stepCell f A q r c = A r c
        rw [stepCell, if_neg (by rw [hgetq]; exact hqfire)]
      rw [hstep]
      refine ⟨?_, ?_, ?_⟩
      · intro hfire hmem
        apply ih1 hfire
        rcases List.mem_append.mp hmem with h | h
        · exact h
        · exfalso
          rcases List.mem_singleton.mp h with heq
          have hr : r = q.1 := congrArg Prod.fst heq
          have hc : c = q.2 := congrArg Prod.snd heq
          rw [hr, hc] at hfire; exact hqfire hfire
      · intro htree hr hc hign
        apply ih2 htree hr hc
        rcases (ignitedBy_append_singleton f L q r c).mp hign with h | h
        · exact h
        · exact absurd h.1 hqfire
      · intro hno1 hno2
        apply ih3
        · intro ⟨hfire, hmem⟩
          exact hno1 ⟨hfire, List.mem_append_left _ hmem⟩
        · intro ⟨htree, hr, hc, hign⟩
          exact hno2 ⟨htree, hr, hc,
            (ignitedBy_append_singleton f L q r c).mpr (Or.inl hign)⟩

/-- `(r, c)` has a burning (edge-clipped) orthogonal neighbour somewhere on the
grid. -/
def Forest.burningNeighbor (f : Forest) (r c : Nat) : Prop :=
  ignitedBy f (available_positions f.size) r c

/-- Full per-cell description of one `Simulation.next_step` on in-range cells:
`FIRE → ASHES`; `TREE → FIRE` when some burning cell reaches it, else `TREE`;
`EMPTY` and `ASHES` are untouched. -/
theorem step_grid_char (f : Forest) (r c : Nat)
    (hr : r < f.size) (hc : c < f.size) :
    (f.grid r c = TileState.FIRE → f.step.grid r c = TileState.ASHES) ∧
    (f.grid r c = TileState.TREE → f.burningNeighbor r c →
        f.step.grid r c = TileState.FIRE) ∧
    (f.grid r c = TileState.TREE → ¬f.burningNeighbor r c →
        f.step.grid r c = TileState.TREE) ∧
    (f.grid r c = TileState.EMPTY → f.step.grid r c = TileState.EMPTY) ∧
    (f.grid r c = TileState.ASHES → f.step.grid r c = TileState.ASHES) := by
  have hL : ∀ p ∈ available_positions f.size, p.1 < f.size ∧ p.2 < f.size :=
    fun p hp => mem_available_positions.mp hp
  obtain ⟨h1, h2, h3⟩ := foldl_stepCell_char f (available_positions f.size) hL r c
  have hmem : (r, c) ∈ available_positions f.size :=
    mem_available_positions.mpr ⟨hr, hc⟩
  refine ⟨fun hf => h1 hf hmem, fun ht hb => h2 ht hr hc hb, ?_, ?_, ?_⟩
  · intro ht hnb
    have := h3 (by rintro ⟨hf, _⟩; rw [ht] at hf; cases hf)
      (by rintro ⟨_, _, _, hb⟩; exact hnb hb)
    exact this.trans ht
  · intro he
    have := h3 (by rintro ⟨hf, _⟩; rw [he] at hf; cases hf)
      (by rintro ⟨ht, _⟩; rw [he] at ht; cases ht)
    exact this.trans he
  · intro ha
    have := h3 (by rintro ⟨hf, _⟩; rw [ha] at hf; cases hf)
      (by rintro ⟨ht, _⟩; rw [ha] at ht; cases ht)
    exact this.trans ha

/-- Cells outside the `size × size` square are never touched by a step. -/
theorem step_grid_out_of_range (f : Forest) (r c : Nat)
    (h : ¬(r < f.size ∧ c < f.size)) : f.step.grid r c = f.grid r c := by
  have hL : ∀ p ∈ available_positions f.size, p.1 < f.size ∧ p.2 < f.size :=
    fun p hp => mem_available_positions.mp hp
  obtain ⟨_, _, h3⟩ := foldl_stepCell_char f (available_positions f.size) hL r c
  exact h3 (by rintro ⟨_, hmem⟩; exact h (mem_available_positions.mp hmem))
    (by rintro ⟨_, hr, hc, _⟩; exact h ⟨hr, hc⟩)

theorem step_size (f : Forest) : f.step.size = f.size := rfl

theorem hasFire_iff (f : Forest) :
    f.hasFire = true ↔
      ∃ p : Nat × Nat, p.1 < f.size ∧ p.2 < f.size ∧
        f.grid p.1 p.2 = TileState.FIRE := by
  unfold Forest.hasFire
  rw [List.any_eq_true]
  constructor
  · rintro ⟨p, hp, hfire⟩
    exact ⟨p, (mem_available_positions.mp hp).1, (mem_available_positions.mp hp).2,
      of_decide_eq_true hfire⟩
  · rintro ⟨p, hr, hc, hfire⟩
    exact ⟨p, mem_available_positions.mpr ⟨hr, hc⟩, decide_eq_true hfire⟩

/-- A grid with no burning cell is a fixed point of the step. -/
theorem step_eq_of_no_fire (f : Forest) (h : f.hasFire = false) : f.step = f := by
  have hnof : ∀ p : Nat × Nat, p.1 < f.size → p.2 < f.size →
      f.grid p.1 p.2 ≠ TileState.FIRE := by
    intro p hr hc hfire
    rw [(hasFire_iff f).mpr ⟨p, hr, hc, hfire⟩] at h
    cases h
  have hgrid : ∀ r c, f.step.grid r c = f.grid r c := by
    intro r c
    by_cases hin : r < f.size ∧ c < f.size
    · have hL : ∀ p ∈ available_positions f.size,
          p.1 < f.size ∧ p.2 < f.size := fun p hp => mem_available_positions.mp hp
      obtain ⟨_, _, h3⟩ := foldl_stepCell_char f (available_positions f.size) hL r c
      exact h3 (by rintro ⟨hf, _⟩; exact hnof (r, c) hin.1 hin.2 hf)
        (by
          rintro ⟨_, _, _, q, hq, hqfire, _⟩
          exact hnof q (mem_available_positions.mp hq).1
            (mem_available_positions.mp hq).2 hqfire)
    · exact step_grid_out_of_range f r c hin
  cases f with
  | mk n g =>
    show Forest.mk n _ = Forest.mk n g
    congr 1
    funext r c
    exact hgrid r c

theorem iterate_step_of_no_fire (f : Forest) (h : f.hasFire = false) (k : Nat) :
    Forest.step^[k] f = f := by
  induction k with
  | zero => rfl
  | succ k ih => rw [Function.iterate_succ_apply, step_eq_of_no_fire f h, ih]

/-! ## Counting cells -/

/-- The set of in-range positions currently holding state `s`. -/
def Forest.cellsIn (f : Forest) (s : TileState) : Finset (Nat × Nat) :=
  (Finset.range f.size ×ˢ Finset.range f.size).filter
    fun p => f.grid p.1 p.2 = s

theorem mem_cellsIn {f : Forest} {s : TileState} {p : Nat × Nat} :
    p ∈ f.cellsIn s ↔ p.1 < f.size ∧ p.2 < f.size ∧ f.grid p.1 p.2 = s := by
  simp [Forest.cellsIn, Finset.mem_filter, Finset.mem_product, and_assoc]

/-- The scan count of `countState` is the cardinality of `cellsIn`. -/
theorem countState_eq_card (f : Forest) (s : TileState) :
    f.countState s = (f.cellsIn s).card := by
  unfold Forest.countState
  have hnodup : ((available_positions f.size).filter fun p =>
      decide (f.grid p.1 p.2 = s)).Nodup :=
    (available_positions_nodup f.size).filter _
  rw [← List.toFinset_card_of_nodup hnodup]
  congr 1
  ext p
  simp only [List.mem_toFinset, List.mem_filter, mem_available_positions,
    mem_cellsIn, decide_eq_true_eq, and_assoc]

theorem hasFire_iff_countState (f : Forest) :
    f.hasFire = true ↔ 0 < f.countState TileState.FIRE := by
  rw [hasFire_iff, countState_eq_card, Finset.card_pos]
  constructor
  · rintro ⟨p, hr, hc, hfire⟩
    exact ⟨p, mem_cellsIn.mpr ⟨hr, hc, hfire⟩⟩
  · rintro ⟨p, hp⟩
    obtain ⟨hr, hc, hfire⟩ := mem_cellsIn.mp hp
    exact ⟨p, hr, hc, hfire⟩

theorem cellsIn_step_fire (f : Forest) [DecidablePred fun p : Nat × Nat =>
      f.burningNeighbor p.1 p.2] :
    f.step.cellsIn TileState.FIRE =
      (f.cellsIn TileState.TREE).filter fun p => f.burningNeighbor p.1 p.2 := by
  ext p
  rw [Finset.mem_filter, mem_cellsIn, mem_cellsIn]
  constructor
  · rintro ⟨hr, hc, hfire⟩
    rw [step_size] at hr hc
    obtain ⟨h1, h2, h3, h4, h5⟩ := step_grid_char f p.1 p.2 hr hc
    refine ⟨⟨hr, hc, ?_⟩, ?_⟩
    · cases hg : f.grid p.1 p.2 with
      | TREE => rfl
      | FIRE => rw [h1 hg] at hfire; cases hfire
      | EMPTY => rw [h4 hg] at hfire; cases hfire
      | ASHES => rw [h5 hg] at hfire; cases hfire
    · by_contra hnb
      have htree : f.grid p.1 p.2 = TileState.TREE := by
        cases hg : f.grid p.1 p.2 with
        | TREE => rfl
        | FIRE => rw [h1 hg] at hfire; cases hfire
        | EMPTY => rw [h4 hg] at hfire; cases hfire
        | ASHES => rw [h5 hg] at hfire; cases hfire
      rw [h3 htree hnb] at hfire; cases hfire
  · rintro ⟨⟨hr, hc, htree⟩, hnb⟩
    obtain ⟨_, h2, _, _, _⟩ := step_grid_char f p.1 p.2 hr hc
    exact ⟨by rw [step_size]; exact hr, by rw [step_size]; exact hc, h2 htree hnb⟩

theorem cellsIn_step_tree (f : Forest) [DecidablePred fun p : Nat × Nat =>
      f.burningNeighbor p.1 p.2] :
    f.step.cellsIn TileState.TREE =
      (f.cellsIn TileState.TREE).filter fun p => ¬f.burningNeighbor p.1 p.2 := by
  ext p
  rw [Finset.mem_filter, mem_cellsIn, mem_cellsIn]
  constructor
  · rintro ⟨hr, hc, htree'⟩
    rw [step_size] at hr hc
    obtain ⟨h1, h2, h3, h4, h5⟩ := step_grid_char f p.1 p.2 hr hc
    have htree : f.grid p.1 p.2 = TileState.TREE := by
      cases hg : f.grid p.1 p.2 with
      | TREE => rfl
      | FIRE => rw [h1 hg] at htree'; cases htree'
      | EMPTY => rw [h4 hg] at htree'; cases htree'
      | ASHES => rw [h5 hg] at htree'; cases htree'
    refine ⟨⟨hr, hc, htree⟩, fun hnb => ?_⟩
    rw [h2 htree hnb] at htree'; cases htree'
  · rintro ⟨⟨hr, hc, htree⟩, hnb⟩
    obtain ⟨_, _, h3, _, _⟩ := step_grid_char f p.1 p.2 hr hc
    exact ⟨by rw [step_size]; exact hr, by rw [step_size]; exact hc, h3 htree hnb⟩

/-- The burn measure: trees plus burning cells.  Each step turns it into the
old tree count, so it never grows, and it shrinks while a fire burns. -/
def Forest.burnMeasure (f : Forest) : Nat :=
  (f.cellsIn TileState.TREE).card + (f.cellsIn TileState.FIRE).card

theorem burnMeasure_step (f : Forest) :
    f.step.burnMeasure = (f.cellsIn TileState.TREE).card := by
  classical
  unfold Forest.burnMeasure
  rw [cellsIn_step_tree f, cellsIn_step_fire f, Nat.add_comm]
  exact Finset.filter_card_add_filter_neg_card_eq_card _

theorem burnMeasure_step_lt (f : Forest) (h : f.hasFire = true) :
    f.step.burnMeasure < f.burnMeasure := by
  rw [burnMeasure_step]
  unfold Forest.burnMeasure
  have : 0 < (f.cellsIn TileState.FIRE).card := by
    rw [← countState_eq_card]
    exact (hasFire_iff_countState f).mp h
  omega

theorem burnMeasure_le (f : Forest) : f.burnMeasure ≤ f.size * f.size := by
  unfold Forest.burnMeasure
  classical
  have hdisj : Disjoint (f.cellsIn TileState.TREE) (f.cellsIn TileState.FIRE) := by
    rw [Finset.disjoint_left]
    intro p hp hq
    have h1 := (mem_cellsIn.mp hp).2.2
    have h2 := (mem_cellsIn.mp hq).2.2
    rw [h1] at h2; cases h2
  rw [← Finset.card_union_of_disjoint hdisj]
  have hsub : f.cellsIn TileState.TREE ∪ f.cellsIn TileState.FIRE ⊆
      Finset.range f.size ×ˢ Finset.range f.size := by
    intro p hp
    rcases Finset.mem_union.mp hp with h | h <;>
      exact Finset.mem_product.mpr ⟨Finset.mem_range.mpr (mem_cellsIn.mp h).1,
        Finset.mem_range.mpr (mem_cellsIn.mp h).2.1⟩
  calc (f.cellsIn TileState.TREE ∪ f.cellsIn TileState.FIRE).card
      ≤ (Finset.range f.size ×ˢ Finset.range f.size).card :=
        Finset.card_le_card hsub
    _ = f.size * f.size := by rw [Finset.card_product, Finset.card_range]

/-- Iterating the step at least `burnMeasure` many times extinguishes every
fire. -/
theorem no_fire_after_measure :
    ∀ n : Nat, ∀ f : Forest, f.burnMeasure ≤ n →
      (Forest.step^[n] f).hasFire = false := by
  intro n
  induction n with
  | zero =>
    intro f hf
    show f.hasFire = false
    by_contra hcontra
    have h := (hasFire_iff_countState f).mp (by
      cases hh : f.hasFire with
      | true => rfl
      | false => exact absurd hh hcontra)
    rw [countState_eq_card] at h
    unfold Forest.burnMeasure at hf
    omega
  | succ n ih =>
    intro f hf
    cases hh : f.hasFire with
    | true =>
      rw [Function.iterate_succ_apply]
      exact ih f.step (by have := burnMeasure_step_lt f hh; omega)
    | false =>
      rw [Function.iterate_succ_apply, step_eq_of_no_fire f hh,
        iterate_step_of_no_fire f hh]
      exact hh

/-! ## Planting and ignition -/

/-- What the planting loop writes: exactly the listed positions become `TREE`,
everything else keeps its value. -/
theorem foldl_plant_char (L : List (Nat × Nat)) (g : Nat → Nat → TileState)
    (r c : Nat) :
    L.foldl (fun g p => setG g p.1 p.2 TileState.TREE) g r c =
      if (r, c) ∈ L then TileState.TREE else g r c := by
  induction L generalizing g with
  | nil => simp
  | cons p L ih =>
    rw [List.foldl_cons, ih]
    by_cases hmem : (r, c) ∈ L
    · rw [if_pos hmem, if_pos (List.mem_cons_of_mem p hmem)]
    · rw [if_neg hmem]
      by_cases hp : (r, c) = p
      · rw [if_pos (by rw [hp]; exact List.mem_cons_self p L)]
        have hr : r = p.1 := congrArg Prod.fst hp
        have hc : c = p.2 := congrArg Prod.snd hp
        rw [hr, hc]
        exact setG_same g p.1 p.2 _
      · rw [if_neg (by
          intro h
          rcases List.mem_cons.mp h with h | h
          · exact hp h
          · exact hmem h)]
        exact setG_other g p.1 p.2 _ hp

theorem plant_trees_grid (f : Forest) (num_trees : Int)
    (order : List (Nat × Nat)) (r c : Nat) :
    (f.plant_trees num_trees order).grid r c =
      if (r, c) ∈ order.take num_trees.toNat then TileState.TREE
      else f.grid r c :=
  foldl_plant_char _ f.grid r c

theorem plant_trees_size (f : Forest) (num_trees : Int)
    (order : List (Nat × Nat)) :
    (f.plant_trees num_trees order).size = f.size := rfl

theorem mem_tree_positions {f : Forest} {p : Nat × Nat} :
    p ∈ f.tree_positions ↔
      p.1 < f.size ∧ p.2 < f.size ∧ f.grid p.1 p.2 = TileState.TREE := by
  unfold Forest.tree_positions
  rw [List.mem_filter, mem_available_positions, decide_eq_true_eq, and_assoc]

/-- The tree count of the scan is the length of `tree_positions`. -/
theorem countState_tree_eq_length (f : Forest) :
    f.countState TileState.TREE = f.tree_positions.length := rfl

theorem ignite_tree_of_empty (f : Forest) (choice : Nat)
    (h : f.tree_positions = []) : f.ignite_tree choice = f := by
  simp only [Forest.ignite_tree]
  rw [dif_pos h]

/-- With at least one tree, `ignite_tree` picks a member of `tree_positions`
and sets exactly that cell on fire. -/
theorem ignite_tree_of_nonempty (f : Forest) (choice : Nat)
    (h : ¬f.tree_positions = []) :
    ∃ p : Nat × Nat, p ∈ f.tree_positions ∧
      f.ignite_tree choice =
        { f with grid := setG f.grid p.1 p.2 TileState.FIRE } := by
  simp only [Forest.ignite_tree]
  rw [dif_neg h]
  exact ⟨_, List.get_mem _ _ _, rfl⟩

/-- Overwriting one in-range cell with state `s` updates the census sets:
cells of state `s` gain the position, cells of any other state lose it. -/
theorem cellsIn_setG (f : Forest) (p : Nat × Nat) (s t : TileState)
    (hr : p.1 < f.size) (hc : p.2 < f.size) :
    ({ f with grid := setG f.grid p.1 p.2 s } : Forest).cellsIn t =
      if s = t then insert p (f.cellsIn t) else (f.cellsIn t).erase p := by
  classical
  ext q
  by_cases hst : s = t
  · rw [if_pos hst, Finset.mem_insert, mem_cellsIn, mem_cellsIn]
    show q.1 < f.size ∧ q.2 < f.size ∧ setG f.grid p.1 p.2 s q.1 q.2 = t ↔ _
    by_cases hqp : q = p
    · subst hqp
      rw [setG_same]
      simp [hr, hc, hst]
    · rw [setG_other f.grid p.1 p.2 s (by
        intro hcontra
        exact hqp (Prod.ext (congrArg Prod.fst hcontra)
          (congrArg Prod.snd hcontra)))]
      simp [hqp]
  · rw [if_neg hst, Finset.mem_erase, mem_cellsIn, mem_cellsIn]
    show q.1 < f.size ∧ q.2 < f.size ∧ setG f.grid p.1 p.2 s q.1 q.2 = t ↔ _
    by_cases hqp : q = p
    · subst hqp
      rw [setG_same]
      simp [hst]
    · rw [setG_other f.grid p.1 p.2 s (by
        intro hcontra
        exact hqp (Prod.ext (congrArg Prod.fst hcontra)
          (congrArg Prod.snd hcontra)))]
      simp [hqp]

theorem ignite_tree_size (f : Forest) (choice : Nat) :
    (f.ignite_tree choice).size = f.size := by
  simp only [Forest.ignite_tree]
  split
  · rfl
  · rfl

theorem iterate_next_step_forest (k : Nat) (s : Simulation) :
    (Simulation.next_step^[k] s).forest = Forest.step^[k] s.forest := by
  induction k generalizing s with
  | zero => rfl
  | succ k ih =>
    rw [Function.iterate_succ_apply, Function.iterate_succ_apply]
    exact ih s.next_step

/-! ## The claims -/

/-- C2 (counterexample): constructing with size `N = 0` does **not** fail:
`Forest.__init__` performs no validation and `np.full((0, 0), EMPTY)` succeeds,
so the claim "constructing with `N ≤ 0` fails with an InvalidDimension error"
is false at `N = 0`. -/
theorem claim_C2_counterexample : (Forest.init 0).isOk = true := rfl

/-- C2 (amended): construction succeeds exactly for `N ≥ 0` — a negative size
fails (with NumPy's generic `ValueError`, there is no dedicated
`InvalidDimension` error), `N = 0` succeeds with an empty `0 × 0` grid, and
every successful construction yields an `N × N` grid with every cell
`Empty`. -/
theorem claim_C2_amended (z : Int) :
    ((Forest.init z).isOk = true ↔ 0 ≤ z) ∧
    (∀ f, Forest.init z = Except.ok f →
      f.size = z.toNat ∧ ∀ r c, f.grid r c = TileState.EMPTY) := by
  unfold Forest.init
  by_cases hz : z < 0
  · rw [if_pos hz]
    constructor
    · constructor
      · intro h; cases h
      · intro h; omega
    · intro f hf; cases hf
  · rw [if_neg hz]
    constructor
    · constructor
      · intro _; omega
      · intro _; rfl
    · intro f hf
      cases hf
      exact ⟨rfl, fun _ _ => rfl⟩

/-- C2 (witness): at `z = 3` the hypotheses are satisfiable and construction
succeeds. -/
theorem claim_C2_witness : (Forest.init 3).isOk = true :=
  (claim_C2_amended 3).1.mpr (by decide)

/-- C7: for every grid of positive size `N` and all integer coordinates,
including negative ones, `get_state` reads the cell at `(row % N, col % N)`
and `set_state` writes the cell at `(row % N, col % N)` and nothing else,
where `%` is mathematical modulo with an always non-negative result `< N`, so
both accesses are in bounds for any integer input. -/
theorem claim_C7 (f : Forest) (hN : 0 < f.size) (row col : Int)
    (s : TileState) :
    (0 ≤ row % (f.size : Int) ∧ row % (f.size : Int) < (f.size : Int) ∧
     0 ≤ col % (f.size : Int) ∧ col % (f.size : Int) < (f.size : Int)) ∧
    f.get_state row col =
      f.grid (row % (f.size : Int)).toNat (col % (f.size : Int)).toNat ∧
    (f.set_state row col s).size = f.size ∧
    (f.set_state row col s).grid (row % (f.size : Int)).toNat
      (col % (f.size : Int)).toNat = s ∧
    (∀ i j : Nat,
      ¬(i = (row % (f.size : Int)).toNat ∧ j = (col % (f.size : Int)).toNat) →
      (f.set_state row col s).grid i j = f.grid i j) := by
  have hpos : (0 : Int) < (f.size : Int) := by exact_mod_cast hN
  refine ⟨⟨Int.emod_nonneg row (by omega), Int.emod_lt_of_pos row hpos,
    Int.emod_nonneg col (by omega), Int.emod_lt_of_pos col hpos⟩, rfl, rfl,
    setG_same _ _ _ _, ?_⟩
  intro i j hij
  exact setG_other _ _ _ _ (by
    intro hcontra
    exact hij ⟨congrArg Prod.fst hcontra, congrArg Prod.snd hcontra⟩)

/-- C7 (witness): on a `2 × 2` grid, writing at `(-1, -3)` lands at `(1, 1)`. -/
theorem claim_C7_witness :
    ((Forest.mk 2 fun _ _ => TileState.EMPTY).set_state (-1) (-3)
      TileState.TREE).grid 1 1 = TileState.TREE := by
  have h := (claim_C7 (Forest.mk 2 fun _ _ => TileState.EMPTY) (by decide)
    (-1) (-3) TileState.TREE).2.2.2.1
  have hr : (((-1 : Int)) % (((2 : Nat) : Int))).toNat = 1 := by decide
  have hc : (((-3 : Int)) % (((2 : Nat) : Int))).toNat = 1 := by decide
  rw [hr, hc] at h
  exact h

/-- The planted cell set is exactly the taken prefix of the shuffle, on any
starting grid whose trees it covers. -/
theorem plant_cellsIn_tree (f : Forest) (Z : Int) (order : List (Nat × Nat))
    (hempty : ∀ r c, f.grid r c = TileState.EMPTY)
    (hperm : order.Perm (available_positions f.size)) :
    (f.plant_trees Z order).cellsIn TileState.TREE =
      (order.take Z.toNat).toFinset := by
  ext q
  rw [mem_cellsIn, List.mem_toFinset]
  constructor
  · rintro ⟨_, _, htree⟩
    by_contra hq
    rw [plant_trees_grid, if_neg hq, hempty] at htree
    cases htree
  · intro hq
    have hq' : q ∈ order := List.mem_of_mem_take hq
    have hmem := hperm.mem_iff.mp hq'
    obtain ⟨h1, h2⟩ := mem_available_positions.mp hmem
    refine ⟨h1, h2, ?_⟩
    rw [plant_trees_grid, if_pos hq]

/-- The number of trees planted is `min Z N²` (clamped below at `0`). -/
theorem plant_countState_tree (f : Forest) (Z : Int)
    (order : List (Nat × Nat))
    (hempty : ∀ r c, f.grid r c = TileState.EMPTY)
    (hperm : order.Perm (available_positions f.size)) :
    (f.plant_trees Z order).countState TileState.TREE =
      min Z.toNat (f.size * f.size) := by
  rw [countState_eq_card, plant_cellsIn_tree f Z order hempty hperm]
  have hnodup : order.Nodup :=
    hperm.nodup_iff.mpr (available_positions_nodup f.size)
  have htake : (order.take Z.toNat).Nodup :=
    (List.take_sublist _ _).nodup hnodup
  rw [List.toFinset_card_of_nodup htake, List.length_take, hperm.length_eq,
    available_positions_length]

/-- C5: after `Construct(N)` then `PlantTrees(Z)`: with `0 < Z ≤ N²` exactly
`Z` cells are `Tree` and all others `Empty`; with `Z > N²` all `N²` cells are
`Tree`; with `Z ≤ 0` the grid is unchanged.  The shuffle is modelled by an
arbitrary permutation `order` of all positions. -/
theorem claim_C5 (f : Forest) (Z : Int) (order : List (Nat × Nat))
    (hempty : ∀ r c, f.grid r c = TileState.EMPTY)
    (hperm : order.Perm (available_positions f.size)) :
    (0 < Z → Z ≤ ((f.size * f.size : Nat) : Int) →
      (f.plant_trees Z order).countState TileState.TREE = Z.toNat ∧
      ∀ r c, r < f.size → c < f.size →
        (f.plant_trees Z order).grid r c ≠ TileState.TREE →
        (f.plant_trees Z order).grid r c = TileState.EMPTY) ∧
    (((f.size * f.size : Nat) : Int) < Z →
      (f.plant_trees Z order).countState TileState.TREE = f.size * f.size ∧
      ∀ r c, r < f.size → c < f.size →
        (f.plant_trees Z order).grid r c = TileState.TREE) ∧
    (Z ≤ 0 → f.plant_trees Z order = f) := by
  refine ⟨?_, ?_, ?_⟩
  · intro hZ1 hZ2
    constructor
    · rw [plant_countState_tree f Z order hempty hperm]
      have hm : Z.toNat ≤ f.size * f.size := by
        set m := f.size * f.size with hm
        omega
      omega
    · intro r c _ _ hnt
      rw [plant_trees_grid] at hnt ⊢
      rcases Decidable.em ((r, c) ∈ order.take Z.toNat) with hmem | hmem
      · exact absurd (if_pos hmem) hnt
      · rw [if_neg hmem]; exact hempty r c
  · intro hZ
    have htake : order.take Z.toNat = order := by
      apply List.take_of_length_le
      rw [hperm.length_eq, available_positions_length]
      set m := f.size * f.size with hm
      omega
    constructor
    · rw [plant_countState_tree f Z order hempty hperm]
      set m := f.size * f.size with hm
      omega
    · intro r c hr hc
      rw [plant_trees_grid, if_pos]
      rw [htake, hperm.mem_iff]
      exact mem_available_positions.mpr ⟨hr, hc⟩
  · intro hZ
    have h0 : Z.toNat = 0 := by omega
    unfold Forest.plant_trees
    rw [h0]
    rfl

/-- C5 (witness): planting `3` trees on a fresh `2 × 2` grid (identity
shuffle) yields exactly `3` trees. -/
theorem claim_C5_witness :
    ((Forest.mk 2 fun _ _ => TileState.EMPTY).plant_trees 3
      (available_positions 2)).countState TileState.TREE = 3 :=
  (((claim_C5 (Forest.mk 2 fun _ _ => TileState.EMPTY) 3
    (available_positions 2) (fun _ _ => rfl) (List.Perm.refl _)).1)
    (by decide) (by decide)).1

/-- C9 (implicit): `PlantTrees(Z)` on an arbitrary grid sets the first
`min(Z, N²)` positions of the shuffled enumeration to `Tree` regardless of
their prior state (so `Fire`/`Ash` cells in the selection are overwritten),
and every position outside the selection keeps its prior state. -/
theorem claim_C9 (f : Forest) (Z : Int) (order : List (Nat × Nat))
    (hperm : order.Perm (available_positions f.size)) :
    (order.take Z.toNat).length = min Z.toNat (f.size * f.size) ∧
    (∀ p ∈ order.take Z.toNat,
      (f.plant_trees Z order).grid p.1 p.2 = TileState.TREE) ∧
    (∀ q : Nat × Nat, q ∉ order.take Z.toNat →
      (f.plant_trees Z order).grid q.1 q.2 = f.grid q.1 q.2) := by
  refine ⟨?_, ?_, ?_⟩
  · rw [List.length_take, hperm.length_eq, available_positions_length]
  · intro p hp
    rw [plant_trees_grid, if_pos hp]
  · intro q hq
    rw [plant_trees_grid, if_neg hq]

/-- C9 (witness): planting `2` trees over an all-`Fire` `2 × 2` grid with the
identity shuffle overwrites the first two positions to `Tree` and keeps the
others on `Fire`. -/
theorem claim_C9_witness :
    ((Forest.mk 2 fun _ _ => TileState.FIRE).plant_trees 2
        (available_positions 2)).grid 0 0 = TileState.TREE ∧
    ((Forest.mk 2 fun _ _ => TileState.FIRE).plant_trees 2
        (available_positions 2)).grid 1 1 = TileState.FIRE := by
  have h := claim_C9 (Forest.mk 2 fun _ _ => TileState.FIRE) 2
    (available_positions 2) (List.Perm.refl _)
  exact ⟨h.2.1 (0, 0) (by decide), h.2.2 (1, 1) (by decide)⟩

/-- C6: `IgniteRandomTree` on a grid with zero `Tree` cells leaves the grid
completely unchanged (a valid no-op); on a grid with at least one `Tree` cell
it increases `count(Fire)` by exactly `1` and decreases `count(Tree)` by
exactly `1`, whatever tree the random draw selects. -/
theorem claim_C6 (f : Forest) (choice : Nat) :
    (f.countState TileState.TREE = 0 → f.ignite_tree choice = f) ∧
    (0 < f.countState TileState.TREE →
      (f.ignite_tree choice).countState TileState.FIRE =
        f.countState TileState.FIRE + 1 ∧
      (f.ignite_tree choice).countState TileState.TREE + 1 =
        f.countState TileState.TREE) := by
  constructor
  · intro h0
    apply ignite_tree_of_empty
    rw [countState_tree_eq_length] at h0
    exact List.eq_nil_of_length_eq_zero h0
  · intro hpos
    have hne : ¬f.tree_positions = [] := by
      intro hnil
      rw [countState_tree_eq_length, hnil] at hpos
      exact absurd hpos (by decide)
    obtain ⟨p, hp, heq⟩ := ignite_tree_of_nonempty f choice hne
    obtain ⟨hr, hc, htree⟩ := mem_tree_positions.mp hp
    constructor
    · rw [heq, countState_eq_card, countState_eq_card,
        cellsIn_setG f p TileState.FIRE TileState.FIRE hr hc, if_pos rfl]
      apply Finset.card_insert_of_not_mem
      intro hmem
      have := (mem_cellsIn.mp hmem).2.2
      rw [htree] at this
      cases this
    · rw [heq, countState_eq_card, countState_eq_card,
        cellsIn_setG f p TileState.FIRE TileState.TREE hr hc,
        if_neg (by intro h; cases h)]
      have hmem : p ∈ f.cellsIn TileState.TREE := mem_cellsIn.mpr ⟨hr, hc, htree⟩
      have hcard : 0 < (f.cellsIn TileState.TREE).card :=
        Finset.card_pos.mpr ⟨p, hmem⟩
      rw [Finset.card_erase_of_mem hmem]
      omega

/-- C6 (witness): both branches at concrete grids — igniting an all-`Empty`
`1 × 1` grid is a no-op, igniting an all-`Tree` `1 × 1` grid moves one cell
from `Tree` to `Fire`. -/
theorem claim_C6_witness :
    (Forest.mk 1 fun _ _ => TileState.EMPTY).ignite_tree 0 =
      (Forest.mk 1 fun _ _ => TileState.EMPTY) ∧
    ((Forest.mk 1 fun _ _ => TileState.TREE).ignite_tree 0).countState
        TileState.FIRE =
      (Forest.mk 1 fun _ _ => TileState.TREE).countState TileState.FIRE + 1 ∧
    ((Forest.mk 1 fun _ _ => TileState.TREE).ignite_tree 0).countState
        TileState.TREE + 1 =
      (Forest.mk 1 fun _ _ => TileState.TREE).countState TileState.TREE :=
  ⟨(claim_C6 (Forest.mk 1 fun _ _ => TileState.EMPTY) 0).1 (by decide),
    (claim_C6 (Forest.mk 1 fun _ _ => TileState.TREE) 0).2 (by decide)⟩

/-- C10 (implicit): whenever `IgniteRandomTree` changes the grid it changes
exactly one cell — the selected position, which held `Tree`, becomes `Fire` —
and every other cell keeps its state; and the grid's dimensions are unchanged
by it and by every other operation (planting, stepping, `set_state`). -/
theorem claim_C10 (f : Forest) (choice : Nat) (Z : Int)
    (order : List (Nat × Nat)) (row col : Int) (s : TileState) :
    (f.ignite_tree choice).size = f.size ∧
    (f.plant_trees Z order).size = f.size ∧
    f.step.size = f.size ∧
    (f.set_state row col s).size = f.size ∧
    (¬f.tree_positions = [] →
      ∃ p : Nat × Nat, p.1 < f.size ∧ p.2 < f.size ∧
        f.grid p.1 p.2 = TileState.TREE ∧
        (f.ignite_tree choice).grid p.1 p.2 = TileState.FIRE ∧
        ∀ q : Nat × Nat, q ≠ p →
          (f.ignite_tree choice).grid q.1 q.2 = f.grid q.1 q.2) ∧
    (f.tree_positions = [] → f.ignite_tree choice = f) := by
  refine ⟨ignite_tree_size f choice, rfl, rfl, rfl, ?_,
    ignite_tree_of_empty f choice⟩
  intro hne
  obtain ⟨p, hp, heq⟩ := ignite_tree_of_nonempty f choice hne
  obtain ⟨hr, hc, htree⟩ := mem_tree_positions.mp hp
  refine ⟨p, hr, hc, htree, ?_, ?_⟩
  · rw [heq]
    exact setG_same f.grid p.1 p.2 TileState.FIRE
  · intro q hq
    rw [heq]
    exact setG_other f.grid p.1 p.2 TileState.FIRE (by
      intro hcontra
      exact hq (Prod.ext (congrArg Prod.fst hcontra)
        (congrArg Prod.snd hcontra)))

/-- C10 (witness): concrete `1 × 1` instantiation with one tree. -/
theorem claim_C10_witness :
    ((Forest.mk 1 fun _ _ => TileState.TREE).ignite_tree 0).size = 1 ∧
    ∃ p : Nat × Nat, p.1 < 1 ∧ p.2 < 1 ∧
      (Forest.mk 1 fun _ _ => TileState.TREE).grid p.1 p.2 = TileState.TREE ∧
      ((Forest.mk 1 fun _ _ => TileState.TREE).ignite_tree 0).grid p.1 p.2 =
        TileState.FIRE ∧
      ∀ q : Nat × Nat, q ≠ p →
        ((Forest.mk 1 fun _ _ => TileState.TREE).ignite_tree 0).grid q.1 q.2 =
          (Forest.mk 1 fun _ _ => TileState.TREE).grid q.1 q.2 := by
  have h := claim_C10 (Forest.mk 1 fun _ _ => TileState.TREE) 0 0 [] 0 0
    TileState.EMPTY
  exact ⟨h.1, h.2.2.2.2.1 (by decide)⟩

/-- C3: after one `Step`, every cell that was `Fire` is `Ash`, and every cell
that was `Ash` or `Empty` is unchanged — neither `Ash` nor `Empty` cells ever
change state during stepping. -/
theorem claim_C3 (s : Simulation) (r c : Nat)
    (hr : r < s.forest.size) (hc : c < s.forest.size) :
    (s.forest.grid r c = TileState.FIRE →
      s.next_step.forest.grid r c = TileState.ASHES) ∧
    (s.forest.grid r c = TileState.ASHES →
      s.next_step.forest.grid r c = TileState.ASHES) ∧
    (s.forest.grid r c = TileState.EMPTY →
      s.next_step.forest.grid r c = TileState.EMPTY) := by
  obtain ⟨h1, _, _, h4, h5⟩ := step_grid_char s.forest r c hr hc
  exact ⟨h1, h5, h4⟩

/-- C3 (witness) grid: one `Fire`, one `Ash`, rest `Empty`, on a `2 × 2`
square. -/
def mixed2 : Forest :=
  ⟨2, fun r c =>
    if r = 0 ∧ c = 0 then TileState.FIRE
    else if r = 0 ∧ c = 1 then TileState.ASHES
    else TileState.EMPTY⟩

/-- C3 (witness): the three cases of C3 observed at concrete cells. -/
theorem claim_C3_witness :
    (Simulation.mk mixed2 0).next_step.forest.grid 0 0 = TileState.ASHES ∧
    (Simulation.mk mixed2 0).next_step.forest.grid 0 1 = TileState.ASHES ∧
    (Simulation.mk mixed2 0).next_step.forest.grid 1 0 = TileState.EMPTY :=
  ⟨(claim_C3 (Simulation.mk mixed2 0) 0 0 (by decide) (by decide)).1 rfl,
    (claim_C3 (Simulation.mk mixed2 0) 0 1 (by decide) (by decide)).2.1 rfl,
    (claim_C3 (Simulation.mk mixed2 0) 1 0 (by decide) (by decide)).2.2 rfl⟩

/-- C4 grid: `3 × 3`, centre on fire, everything else trees. -/
def center3 : Forest :=
  ⟨3, fun r c => if r = 1 ∧ c = 1 then TileState.FIRE else TileState.TREE⟩

/-- C4: on the `3 × 3` grid with a burning centre and trees elsewhere, one
`Step` turns the centre to `Ash`, the four orthogonal neighbours to `Fire`,
and leaves the four diagonal neighbours as `Tree` (diagonals never ignite and
the rule reads the pre-step snapshot). -/
theorem claim_C4 :
    (Simulation.mk center3 0).next_step.forest.grid 1 1 = TileState.ASHES ∧
    (Simulation.mk center3 0).next_step.forest.grid 0 1 = TileState.FIRE ∧
    (Simulation.mk center3 0).next_step.forest.grid 1 0 = TileState.FIRE ∧
    (Simulation.mk center3 0).next_step.forest.grid 1 2 = TileState.FIRE ∧
    (Simulation.mk center3 0).next_step.forest.grid 2 1 = TileState.FIRE ∧
    (Simulation.mk center3 0).next_step.forest.grid 0 0 = TileState.TREE ∧
    (Simulation.mk center3 0).next_step.forest.grid 0 2 = TileState.TREE ∧
    (Simulation.mk center3 0).next_step.forest.grid 2 0 = TileState.TREE ∧
    (Simulation.mk center3 0).next_step.forest.grid 2 2 = TileState.TREE := by
  decide

/-- C1 grid: `3 × 3`, corner `(0,0)` on fire, everything else trees. -/
def corner3 : Forest :=
  ⟨3, fun r c => if r = 0 ∧ c = 0 then TileState.FIRE else TileState.TREE⟩

/-- C1 (counterexample): on the `3 × 3` grid with `Fire` at `(0,0)` and
`Tree` everywhere else — in particular at `(N-1,0) = (2,0)` and
`(0,N-1) = (0,2)` — one `Step` does **not** ignite `(2,0)` or `(0,2)`: both
are still `Tree`.  The neighbour lookup in `next_step` clips at the grid edge
(`0 <= nr < size`), it does not wrap. -/
theorem claim_C1_counterexample :
    corner3.grid 0 0 = TileState.FIRE ∧
    corner3.grid 2 0 = TileState.TREE ∧
    corner3.grid 0 2 = TileState.TREE ∧
    (Simulation.mk corner3 0).next_step.forest.grid 2 0 = TileState.TREE ∧
    (Simulation.mk corner3 0).next_step.forest.grid 0 2 = TileState.TREE ∧
    ¬((Simulation.mk corner3 0).next_step.forest.grid 2 0 = TileState.FIRE ∧
      (Simulation.mk corner3 0).next_step.forest.grid 0 2 = TileState.FIRE) := by
  decide

/-- C1 (amended): on an `N × N` grid with `N ≥ 3` whose only `Fire` cell is
`(0,0)` and whose cells `(N-1,0)` and `(0,N-1)` are `Tree`, after one `Step`
the cells `(N-1,0)` and `(0,N-1)` are still `Tree`: the transition rule's
neighbour lookup clips at the grid edges instead of wrapping (only
`get_state`/`set_state` wrap), so the fire at the corner never reaches them.
(For `N = 2` they do ignite, but as ordinary in-bounds neighbours.) -/
theorem claim_C1_amended (f : Forest) (hN : 3 ≤ f.size)
    (h00 : f.grid 0 0 = TileState.FIRE)
    (honly : ∀ q : Nat × Nat, q.1 < f.size → q.2 < f.size → q ≠ (0, 0) →
      f.grid q.1 q.2 ≠ TileState.FIRE)
    (ht1 : f.grid (f.size - 1) 0 = TileState.TREE)
    (ht2 : f.grid 0 (f.size - 1) = TileState.TREE) :
    f.step.grid (f.size - 1) 0 = TileState.TREE ∧
    f.step.grid 0 (f.size - 1) = TileState.TREE := by
  have hfireonly : ∀ q : Nat × Nat, q ∈ available_positions f.size →
      f.grid q.1 q.2 = TileState.FIRE → q = (0, 0) := by
    intro q hq hfire
    obtain ⟨hq1, hq2⟩ := mem_available_positions.mp hq
    by_contra hne
    exact honly q hq1 hq2 hne hfire
  constructor
  · obtain ⟨_, _, h3, _, _⟩ := step_grid_char f (f.size - 1) 0
      (by omega) (by omega)
    apply h3 ht1
    rintro ⟨q, hq, hfire, d, hd, h1, h2⟩
    have hq00 := hfireonly q hq hfire
    rcases q with ⟨q1, q2⟩
    have e1 : q1 = 0 := congrArg Prod.fst hq00
    have e2 : q2 = 0 := congrArg Prod.snd hq00
    subst e1
    subst e2
    simp only [neighborOffsets, List.mem_cons, List.not_mem_nil, or_false]
      at hd
    rcases hd with rfl | rfl | rfl | rfl <;> dsimp only at h1 h2 <;> omega
  · obtain ⟨_, _, h3, _, _⟩ := step_grid_char f 0 (f.size - 1)
      (by omega) (by omega)
    apply h3 ht2
    rintro ⟨q, hq, hfire, d, hd, h1, h2⟩
    have hq00 := hfireonly q hq hfire
    rcases q with ⟨q1, q2⟩
    have e1 : q1 = 0 := congrArg Prod.fst hq00
    have e2 : q2 = 0 := congrArg Prod.snd hq00
    subst e1
    subst e2
    simp only [neighborOffsets, List.mem_cons, List.not_mem_nil, or_false]
      at hd
    rcases hd with rfl | rfl | rfl | rfl <;> dsimp only at h1 h2 <;> omega

/-- C1 (witness): the amended statement instantiated at the `3 × 3` corner
grid. -/
theorem claim_C1_amended_witness :
    corner3.step.grid 2 0 = TileState.TREE ∧
    corner3.step.grid 0 2 = TileState.TREE := by
  have honly : ∀ q : Nat × Nat, q.1 < corner3.size → q.2 < corner3.size →
      q ≠ (0, 0) → corner3.grid q.1 q.2 ≠ TileState.FIRE := by
    intro q _ _ hne hfire
    have hnot : ¬(q.1 = 0 ∧ q.2 = 0) := by
      rintro ⟨ha, hb⟩
      exact hne (Prod.ext ha hb)
    simp only [corner3] at hfire
    rw [if_neg hnot] at hfire
    cases hfire
  exact claim_C1_amended corner3 (by decide) rfl honly rfl rfl

/-- C8: from any state with at least one burning cell (and no reseeding or
ignition in between), at most `N²` iterated `Step`s reach a state where
`has_fire` is `false`, and it stays `false` under all further steps. -/
theorem claim_C8 (s : Simulation) (h : s.has_fire = true) :
    ∃ k ≤ s.forest.size * s.forest.size,
      (Simulation.next_step^[k] s).has_fire = false ∧
      ∀ m, k ≤ m → (Simulation.next_step^[m] s).has_fire = false := by
  have hk : (Forest.step^[s.forest.size * s.forest.size] s.forest).hasFire =
      false :=
    no_fire_after_measure _ s.forest (burnMeasure_le s.forest)
  refine ⟨s.forest.size * s.forest.size, le_refl _, ?_, ?_⟩
  · show (Simulation.next_step^[s.forest.size * s.forest.size]
      s).forest.hasFire = false
    rw [iterate_next_step_forest]
    exact hk
  · intro m hm
    show (Simulation.next_step^[m] s).forest.hasFire = false
    rw [iterate_next_step_forest]
    have hm' : m = (m - s.forest.size * s.forest.size) +
        s.forest.size * s.forest.size := by omega
    rw [hm', Function.iterate_add_apply,
      iterate_step_of_no_fire _ hk]
    exact hk

/-- C8 (witness): the `1 × 1` burning grid is extinguished within `1` step,
for good. -/
theorem claim_C8_witness :
    (Simulation.mk (Forest.mk 1 fun _ _ => TileState.FIRE) 0).has_fire =
      true ∧
    ∃ k ≤ 1, (Simulation.next_step^[k]
        (Simulation.mk (Forest.mk 1 fun _ _ => TileState.FIRE) 0)).has_fire =
          false ∧
      ∀ m, k ≤ m → (Simulation.next_step^[m]
        (Simulation.mk (Forest.mk 1 fun _ _ => TileState.FIRE) 0)).has_fire =
          false :=
  ⟨rfl, claim_C8 (Simulation.mk (Forest.mk 1 fun _ _ => TileState.FIRE) 0) rfl⟩
